import Mathlib

/-!
# Verification of the ScreenCapturing-Pro timeline, transcode and capture model

Shallow embedding of the parts of the repository that the specification's
testable properties talk about:

* the timeline segment model and its operations `handleSplit`,
  `handleDeleteSegment`, `handleTrimSegment` and the `Timeline` drag handler
  `onHandleDrag` (src/components/RecordingLibrary.tsx, src/components/Timeline.tsx);
* the export fast-path condition `isClean` of `handleExport`
  (src/components/RecordingLibrary.tsx);
* the crop-rectangle computation of `handleExport` (`sourceRect`);
* the progress reporting of both `processVideo` renderer variants
  (src/utils/videoProcessor.ts and src/unnamed/part_005);
* the capture session controller state machine of `useScreenRecorder`
  (src/hooks/useScreenRecorder.ts, the variant with the re-entry guard and
  background compositing).

Time values are modelled as rationals, byte blobs as lists of bytes.
-/

namespace ScreenCap

/-- A timeline segment, `{id, start, end}` in the source
(`VideoSegment` in src/components/RecordingLibrary.tsx).  The source field
`end` is a reserved word in Lean and is called `stop` here. -/
structure Segment where
  id : String
  start : ℚ
  stop : ℚ
deriving DecidableEq, Repr

/-- The timeline invariant of the spec: segments are sorted ascending by
`start` and pairwise non-overlapping (an earlier segment ends no later than a
later segment starts). -/
def sortedNonOverlapping (l : List Segment) : Prop :=
  l.Pairwise (fun a b => a.start ≤ b.start ∧ a.stop ≤ b.start)

instance : DecidablePred sortedNonOverlapping := fun _ => by
  unfold sortedNonOverlapping; infer_instance

/-- Every segment of the list is proper: `start < end` (a data-model
invariant of the spec, §3). -/
def properSegments (l : List Segment) : Prop := ∀ s ∈ l, s.start < s.stop

instance : DecidablePred properSegments := fun _ => by
  unfold properSegments; infer_instance

/-- `handleSplit` (src/components/RecordingLibrary.tsx lines 304-316):
finds the first segment with `time > seg.start && time < seg.end` and
replaces it in place by `part1 = {...seg, end: time}` and
`part2 = {id: newId, start: time, end: seg.end}`; otherwise the list is
unchanged.  The fresh id produced by `Date.now()` is a parameter. -/
def handleSplit (time : ℚ) (newId : String) : List Segment → List Segment
  | [] => []
  | s :: rest =>
    if s.start < time ∧ time < s.stop then
      { s with stop := time } :: ⟨newId, time, s.stop⟩ :: rest
    else
      s :: handleSplit time newId rest

/-- `handleDeleteSegment` (src/components/RecordingLibrary.tsx lines 318-321):
no-op when at most one segment remains, otherwise removes the segments whose
id matches. -/
def handleDeleteSegment (segId : String) (segments : List Segment) : List Segment :=
  if segments.length ≤ 1 then segments
  else segments.filter (fun s => s.id ≠ segId)

/-- `handleTrimSegment` (src/components/RecordingLibrary.tsx lines 323-328):
replaces the matching segment's bounds, keeping everything else. -/
def handleTrimSegment (segId : String) (newStart newStop : ℚ)
    (segments : List Segment) : List Segment :=
  segments.map fun s =>
    if s.id = segId then { s with start := newStart, stop := newStop } else s

/-- Which trim handle of a segment is dragged. -/
inductive DragHandle
  | startHandle
  | stopHandle
deriving DecidableEq, Repr

/-- `onHandleDrag` (src/components/Timeline.tsx lines 54-79): converts a mouse
delta into new bounds, clamped to `[0, safeDuration]` and to a minimum
segment width of `0.1`, then applies `handleTrimSegment`. -/
def onHandleDrag (handle : DragHandle) (seg : Segment) (deltaTime safeDuration : ℚ)
    (segments : List Segment) : List Segment :=
  match handle with
  | .startHandle =>
    handleTrimSegment seg.id
      (max 0 (min (seg.stop - 1/10) (seg.start + deltaTime))) seg.stop segments
  | .stopHandle =>
    handleTrimSegment seg.id seg.start
      (max (seg.start + 1/10) (min safeDuration (seg.stop + deltaTime))) segments

/-- A timeline operation drawn from split and delete. -/
inductive TimelineOp
  | split (time : ℚ) (newId : String)
  | delete (segId : String)

/-- Apply one timeline operation. -/
def applyOp : TimelineOp → List Segment → List Segment
  | .split t nid, l => handleSplit t nid l
  | .delete i, l => handleDeleteSegment i l

/-- Apply a sequence of timeline operations, first element first. -/
def applyOps (ops : List TimelineOp) (l : List Segment) : List Segment :=
  ops.foldl (fun acc op => applyOp op acc) l

/-- Members of a split list: either an original member, or one of the two
parts of a split member. -/
theorem mem_handleSplit {t : ℚ} {nid : String} {l : List Segment} {b : Segment}
    (hb : b ∈ handleSplit t nid l) :
    b ∈ l ∨ ∃ c ∈ l, c.start < t ∧ t < c.stop ∧
      (b = { c with stop := t } ∨ b = ⟨nid, t, c.stop⟩) := by
  induction l with
  | nil => simp [handleSplit] at hb
  | cons s rest ih =>
    by_cases hc : s.start < t ∧ t < s.stop
    · simp only [handleSplit, if_pos hc, List.mem_cons] at hb
      rcases hb with hb | hb | hb
      · exact Or.inr ⟨s, List.mem_cons_self .., hc.1, hc.2, Or.inl hb⟩
      · exact Or.inr ⟨s, List.mem_cons_self .., hc.1, hc.2, Or.inr hb⟩
      · exact Or.inl (List.mem_cons_of_mem _ hb)
    · simp only [handleSplit, if_neg hc, List.mem_cons] at hb
      rcases hb with hb | hb
      · exact Or.inl (by simp [hb])
      · rcases ih hb with h | ⟨c, hcmem, h1, h2, h3⟩
        · exact Or.inl (List.mem_cons_of_mem _ h)
        · exact Or.inr ⟨c, List.mem_cons_of_mem _ hcmem, h1, h2, h3⟩

/-- `handleSplit` preserves the sorted-non-overlapping invariant. -/
theorem sortedNonOverlapping_handleSplit {l : List Segment} (t : ℚ) (nid : String)
    (h : sortedNonOverlapping l) :
    sortedNonOverlapping (handleSplit t nid l) := by
  induction l with
  | nil => simpa [handleSplit] using h
  | cons s rest ih =>
    rcases List.pairwise_cons.mp h with ⟨hhead, htail⟩
    by_cases hc : s.start < t ∧ t < s.stop
    · simp only [handleSplit, if_pos hc]
      refine List.pairwise_cons.mpr ⟨?_, List.pairwise_cons.mpr ⟨?_, htail⟩⟩
      · intro b hb
        rcases List.mem_cons.mp hb with hb | hb
        · subst hb
          exact ⟨le_of_lt hc.1, le_refl t⟩
        · rcases hhead b hb with ⟨h1, h2⟩
          exact ⟨h1, le_trans (le_of_lt hc.2) h2⟩
      · intro b hb
        rcases hhead b hb with ⟨h1, h2⟩
        exact ⟨le_trans (le_of_lt hc.2) h2, h2⟩
    · simp only [handleSplit, if_neg hc]
      refine List.pairwise_cons.mpr ⟨?_, ih htail⟩
      intro b hb
      rcases mem_handleSplit hb with hb | ⟨c, hcmem, h1, h2, h3⟩
      · exact hhead b hb
      · rcases hhead c hcmem with ⟨hs1, hs2⟩
        rcases h3 with rfl | rfl
        · exact ⟨hs1, hs2⟩
        · exact ⟨le_of_lt (lt_of_le_of_lt hs1 h1), le_of_lt (lt_of_le_of_lt hs2 h1)⟩

/-- `handleDeleteSegment` preserves the sorted-non-overlapping invariant. -/
theorem sortedNonOverlapping_handleDeleteSegment {l : List Segment} (segId : String)
    (h : sortedNonOverlapping l) :
    sortedNonOverlapping (handleDeleteSegment segId l) := by
  unfold handleDeleteSegment
  split
  · exact h
  · exact h.sublist (List.filter_sublist l)

/-- If no segment strictly contains the split time, `handleSplit` is the
identity. -/
theorem handleSplit_eq_self {l : List Segment} {t : ℚ} (nid : String)
    (h : ∀ s ∈ l, ¬(s.start < t ∧ t < s.stop)) :
    handleSplit t nid l = l := by
  induction l with
  | nil => rfl
  | cons s rest ih =>
    rw [handleSplit, if_neg (h s (List.mem_cons_self ..)),
      ih fun a ha => h a (List.mem_cons_of_mem _ ha)]

/-- `handleSplit` preserves properness of segments: the two parts of a split
segment inherit `start < time < end` from the containment test itself. -/
theorem properSegments_handleSplit {l : List Segment} (t : ℚ) (nid : String)
    (hp : properSegments l) :
    properSegments (handleSplit t nid l) := by
  induction l with
  | nil => simpa [handleSplit] using hp
  | cons s rest ih =>
    have hrest : properSegments rest := fun a ha => hp a (List.mem_cons_of_mem _ ha)
    by_cases hc : s.start < t ∧ t < s.stop
    · intro b hb
      simp only [handleSplit, if_pos hc, List.mem_cons] at hb
      rcases hb with rfl | rfl | hb
      · exact hc.1
      · exact hc.2
      · exact hrest b hb
    · intro b hb
      simp only [handleSplit, if_neg hc, List.mem_cons] at hb
      rcases hb with rfl | hb
      · exact hp b (List.mem_cons_self ..)
      · exact ih hrest b hb

/-- On a sorted, non-overlapping, proper segment list, a time equal to some
segment's boundary is strictly inside no segment. -/
theorem not_inside_of_boundary {l : List Segment} {t : ℚ}
    (hs : sortedNonOverlapping l) (hp : properSegments l)
    (hb : ∃ s ∈ l, t = s.start ∨ t = s.stop) :
    ∀ u ∈ l, ¬(u.start < t ∧ t < u.stop) := by
  rcases hb with ⟨s, hsmem, hbd⟩
  rintro u humem ⟨h1, h2⟩
  rcases List.mem_iff_get.mp hsmem with ⟨i, hi⟩
  rcases List.mem_iff_get.mp humem with ⟨j, hj⟩
  rcases lt_trichotomy i j with hij | hij | hij
  · have hR := List.pairwise_iff_get.mp hs i j hij
    rw [hi, hj] at hR
    have hts : t ≤ s.stop := by
      rcases hbd with rfl | rfl
      · exact le_of_lt (hp s hsmem)
      · exact le_refl _
    exact absurd (lt_of_lt_of_le h1 (le_trans hts hR.2)) (lt_irrefl _)
  · rw [hij, hj] at hi
    subst hi
    rcases hbd with rfl | rfl
    · exact absurd h1 (lt_irrefl _)
    · exact absurd h2 (lt_irrefl _)
  · have hR := List.pairwise_iff_get.mp hs j i hij
    rw [hi, hj] at hR
    have hst : s.start ≤ t := by
      rcases hbd with rfl | rfl
      · exact le_refl _
      · exact le_of_lt (hp s hsmem)
    exact absurd (lt_of_lt_of_le h2 (le_trans hR.2 hst)) (lt_irrefl _)

/-- C1 (amended): any sequence of split and delete operations preserves the
sorted-non-overlapping timeline invariant. -/
theorem applyOps_sortedNonOverlapping (ops : List TimelineOp) (l : List Segment)
    (h : sortedNonOverlapping l) :
    sortedNonOverlapping (applyOps ops l) := by
  induction ops generalizing l with
  | nil => simpa [applyOps] using h
  | cons op ops ih =>
    rw [applyOps, List.foldl_cons]
    cases op with
    | split t nid => exact ih _ (sortedNonOverlapping_handleSplit t nid h)
    | delete i => exact ih _ (sortedNonOverlapping_handleDeleteSegment i h)

/-- Witness for `applyOps_sortedNonOverlapping` at a concrete timeline. -/
theorem applyOps_sortedNonOverlapping_witness :
    sortedNonOverlapping [⟨"a", 0, 2⟩, ⟨"b", 3, 5⟩] ∧
    sortedNonOverlapping
      (applyOps [TimelineOp.split 1 "c", TimelineOp.delete "a"]
        [⟨"a", 0, 2⟩, ⟨"b", 3, 5⟩]) :=
  ⟨by decide, applyOps_sortedNonOverlapping _ _ (by decide)⟩

/-- C1 counterexample: dragging the end handle of the first segment past the
start of the next one (delta `+2` on `[0,2]` with total duration `5`) yields
`[0,4]` overlapping `[3,5]`: trim does not preserve non-overlap. -/
theorem trim_breaks_sortedNonOverlapping :
    sortedNonOverlapping [⟨"a", 0, 2⟩, ⟨"b", 3, 5⟩] ∧
    ¬ sortedNonOverlapping
        (onHandleDrag .stopHandle ⟨"a", 0, 2⟩ 2 5 [⟨"a", 0, 2⟩, ⟨"b", 3, 5⟩]) := by
  constructor
  · decide
  · intro h
    have h4 : (max ((0:ℚ) + 1/10) (min 5 (2 + 2))) = 4 := by norm_num
    simp only [onHandleDrag, handleTrimSegment, List.map_cons, List.map_nil,
      sortedNonOverlapping, h4] at h
    simp +decide at h

/-- C4 helper: with pairwise-distinct segment ids, filtering out one id
removes at most one element. -/
theorem length_filter_ne_id (l : List Segment) (segId : String)
    (hids : (l.map Segment.id).Nodup) :
    l.length ≤ (l.filter fun s => s.id ≠ segId).length + 1 := by
  induction l with
  | nil => simp
  | cons s rest ih =>
    simp only [List.map_cons, List.nodup_cons] at hids
    by_cases hsid : s.id = segId
    · have hkeep : rest.filter (fun s => s.id ≠ segId) = rest := by
        refine List.filter_eq_self.mpr fun a ha => ?_
        simp only [decide_eq_true_eq]
        intro hc
        have hmem : a.id ∈ List.map Segment.id rest := List.mem_map_of_mem _ ha
        rw [hc, ← hsid] at hmem
        exact hids.1 hmem
      rw [List.filter_cons_of_neg (by simp [hsid]), hkeep]
      simp
    · rw [List.filter_cons_of_pos (by simp [hsid])]
      simp only [List.length_cons]
      exact Nat.succ_le_succ (ih hids.2)

/-- C4 (amended): delete on a single remaining segment is a no-op, and — for
a timeline whose segment ids are pairwise distinct, as the editor maintains —
delete never empties the timeline. -/
theorem handleDeleteSegment_amended (l : List Segment) (segId : String)
    (hlen : 1 ≤ l.length) (hids : (l.map Segment.id).Nodup) :
    (l.length = 1 → handleDeleteSegment segId l = l) ∧
    1 ≤ (handleDeleteSegment segId l).length := by
  constructor
  · intro h1
    unfold handleDeleteSegment
    rw [if_pos (by omega)]
  · unfold handleDeleteSegment
    split
    · exact hlen
    · rename_i hgt
      have := length_filter_ne_id l segId hids
      omega

/-- Witness for `handleDeleteSegment_amended` at a concrete timeline. -/
theorem handleDeleteSegment_amended_witness :
    1 ≤ ([⟨"a", 0, 1⟩, ⟨"b", 1, 2⟩] : List Segment).length ∧
    ((["a", "b"] : List String).Nodup) ∧
    1 ≤ (handleDeleteSegment "a" [⟨"a", 0, 1⟩, ⟨"b", 1, 2⟩]).length :=
  ⟨by decide, by decide,
    (handleDeleteSegment_amended [⟨"a", 0, 1⟩, ⟨"b", 1, 2⟩] "a"
      (by decide) (by decide)).2⟩

/-- C4 counterexample: with duplicate segment ids (ruled out by the editor
but allowed by the claim's "every segment list"), delete removes every
matching segment and the count reaches zero. -/
theorem handleDeleteSegment_counterexample :
    1 ≤ ([⟨"a", 0, 1⟩, ⟨"a", 1, 2⟩] : List Segment).length ∧
    (handleDeleteSegment "a" [⟨"a", 0, 1⟩, ⟨"a", 1, 2⟩]).length = 0 := by
  refine ⟨by decide, ?_⟩
  simp [handleDeleteSegment]

/-- C10 (amended): on a sorted, non-overlapping timeline of proper segments,
splitting exactly at a segment boundary leaves the timeline unchanged, and
split always yields proper segments (never a segment with `start = end`). -/
theorem handleSplit_amended (l : List Segment) (t : ℚ) (nid : String)
    (hs : sortedNonOverlapping l) (hp : properSegments l) :
    ((∃ s ∈ l, t = s.start ∨ t = s.stop) → handleSplit t nid l = l) ∧
    properSegments (handleSplit t nid l) :=
  ⟨fun hb => handleSplit_eq_self nid (not_inside_of_boundary hs hp hb),
    properSegments_handleSplit t nid hp⟩

/-- Witness for `handleSplit_amended` at a concrete timeline. -/
theorem handleSplit_amended_witness :
    sortedNonOverlapping [⟨"a", 0, 2⟩, ⟨"b", 2, 5⟩] ∧
    properSegments [⟨"a", 0, 2⟩, ⟨"b", 2, 5⟩] ∧
    handleSplit 2 "c" [⟨"a", 0, 2⟩, ⟨"b", 2, 5⟩] = [⟨"a", 0, 2⟩, ⟨"b", 2, 5⟩] :=
  ⟨by decide, by decide,
    (handleSplit_amended [⟨"a", 0, 2⟩, ⟨"b", 2, 5⟩] 2 "c" (by decide) (by decide)).1
      ⟨⟨"a", 0, 2⟩, by simp, Or.inr rfl⟩⟩

/-- C10 counterexample: in an overlapping (hence invariant-violating) list,
a time equal to one segment's start can lie strictly inside another segment,
so split does change the list. -/
theorem handleSplit_counterexample :
    (∃ s ∈ ([⟨"a", 0, 5⟩, ⟨"b", 2, 3⟩] : List Segment),
        (2:ℚ) = s.start ∨ (2:ℚ) = s.stop) ∧
    handleSplit 2 "c" [⟨"a", 0, 5⟩, ⟨"b", 2, 3⟩] ≠ [⟨"a", 0, 5⟩, ⟨"b", 2, 3⟩] := by
  constructor
  · exact ⟨⟨"b", 2, 3⟩, by simp, Or.inl rfl⟩
  · decide

/-! ## Export layout: the crop rectangle of `handleExport` -/

/-- A pixel rectangle, as in `Rect` of src/utils/videoProcessor.ts. -/
structure Rect where
  x : ℚ
  y : ℚ
  width : ℚ
  height : ℚ
deriving DecidableEq, Repr

/-- The `sourceRect` computation of `handleExport`
(src/components/RecordingLibrary.tsx lines 381-409): crop size is the video
size divided by the zoom factor, the crop offset is the centred offset
shifted by the pan fraction of the maximal shift, then clamped into
`[0, vid - crop]`. -/
def computeSourceRect (vidW vidH zoom panX panY : ℚ) : Rect :=
  let cropW := vidW / zoom
  let cropH := vidH / zoom
  let maxShiftX := (vidW - cropW) / 2
  let maxShiftY := (vidH - cropH) / 2
  let shiftX := panX * maxShiftX
  let shiftY := panY * maxShiftY
  let cropX := (vidW - cropW) / 2 - shiftX
  let cropY := (vidH - cropH) / 2 - shiftY
  { x := max 0 (min (vidW - cropW) cropX)
    y := max 0 (min (vidH - cropH) cropY)
    width := cropW
    height := cropH }

/-- A rational is an even integer: an integer (denominator one) whose
numerator is divisible by two. -/
def isEvenInt (q : ℚ) : Prop := q.den = 1 ∧ 2 ∣ q.num

instance : DecidablePred isEvenInt := fun _ => by
  unfold isEvenInt; infer_instance

/-- `isEvenInt q` says exactly that `q` is twice an integer. -/
theorem isEvenInt_iff {q : ℚ} : isEvenInt q ↔ ∃ k : ℤ, q = 2 * k := by
  constructor
  · rintro ⟨hden, m, hm⟩
    refine ⟨m, ?_⟩
    have hq : (q.num : ℚ) = q := by
      rw [← Rat.den_eq_one_iff]
      exact hden
    rw [← hq, hm]
    push_cast
    ring
  · rintro ⟨k, rfl⟩
    have h1 : ((2 * k : ℤ) : ℚ) = 2 * (k : ℚ) := by push_cast; ring
    refine ⟨?_, k, ?_⟩
    · rw [← h1, Rat.den_intCast]
    · rw [← h1, Rat.num_intCast]

/-- C9 (amended): for any zoom factor at least one and any pan offsets, the
crop rectangle lies within the source frame bounds with positive size (but
its coordinates are in general neither integral nor even). -/
theorem computeSourceRect_bounds (vidW vidH zoom panX panY : ℚ)
    (hW : 0 < vidW) (hH : 0 < vidH) (hz : 1 ≤ zoom)
    (hpx1 : -1 ≤ panX) (hpx2 : panX ≤ 1) (hpy1 : -1 ≤ panY) (hpy2 : panY ≤ 1) :
    0 ≤ (computeSourceRect vidW vidH zoom panX panY).x ∧
    (computeSourceRect vidW vidH zoom panX panY).x +
      (computeSourceRect vidW vidH zoom panX panY).width ≤ vidW ∧
    0 ≤ (computeSourceRect vidW vidH zoom panX panY).y ∧
    (computeSourceRect vidW vidH zoom panX panY).y +
      (computeSourceRect vidW vidH zoom panX panY).height ≤ vidH ∧
    0 < (computeSourceRect vidW vidH zoom panX panY).width ∧
    0 < (computeSourceRect vidW vidH zoom panX panY).height := by
  have hz0 : (0:ℚ) < zoom := lt_of_lt_of_le one_pos hz
  have hwpos : 0 < vidW / zoom := div_pos hW hz0
  have hwle : vidW / zoom ≤ vidW := div_le_self (le_of_lt hW) hz
  have hhpos : 0 < vidH / zoom := div_pos hH hz0
  have hhle : vidH / zoom ≤ vidH := div_le_self (le_of_lt hH) hz
  dsimp only [computeSourceRect]
  have hxle : max 0 (min (vidW - vidW / zoom)
      ((vidW - vidW / zoom) / 2 - panX * ((vidW - vidW / zoom) / 2)))
      ≤ vidW - vidW / zoom :=
    max_le (by linarith) (min_le_left _ _)
  have hyle : max 0 (min (vidH - vidH / zoom)
      ((vidH - vidH / zoom) / 2 - panY * ((vidH - vidH / zoom) / 2)))
      ≤ vidH - vidH / zoom :=
    max_le (by linarith) (min_le_left _ _)
  refine ⟨le_max_left _ _, by linarith, le_max_left _ _, by linarith, hwpos, hhpos⟩

/-- Witness for `computeSourceRect_bounds` at a concrete layout. -/
theorem computeSourceRect_bounds_witness :
    (0:ℚ) < 1920 ∧ (0:ℚ) < 1080 ∧ (1:ℚ) ≤ 2 ∧
    0 ≤ (computeSourceRect 1920 1080 2 1 0).x ∧
    (computeSourceRect 1920 1080 2 1 0).x +
      (computeSourceRect 1920 1080 2 1 0).width ≤ 1920 :=
  ⟨by norm_num, by norm_num, by norm_num,
    (computeSourceRect_bounds 1920 1080 2 1 0 (by norm_num) (by norm_num)
      (by norm_num) (by norm_num) (by norm_num) (by norm_num) (by norm_num)).1,
    ((computeSourceRect_bounds 1920 1080 2 1 0 (by norm_num) (by norm_num)
      (by norm_num) (by norm_num) (by norm_num) (by norm_num) (by norm_num)).2).1⟩

/-- C9 counterexample: at zoom `1.3` on a 1920x1080 source the crop width is
`19200/13`, which is not an even integer (not an integer at all). -/
theorem computeSourceRect_not_even :
    (1:ℚ) ≤ 13/10 ∧
    ¬ isEvenInt (computeSourceRect 1920 1080 (13/10) 0 0).width := by
  constructor
  · norm_num
  · have hw : (computeSourceRect 1920 1080 (13/10) 0 0).width = 19200/13 := by
      dsimp only [computeSourceRect]
      norm_num
    rw [hw, isEvenInt_iff]
    rintro ⟨k, hk⟩
    rw [div_eq_iff (by norm_num : (13:ℚ) ≠ 0)] at hk
    have hk2 : (19200 : ℤ) = 2 * k * 13 := by exact_mod_cast hk
    have hdvd : (26:ℤ) ∣ 19200 := ⟨k, by linarith⟩
    norm_num at hdvd

/-! ## The export fast path of `handleExport` -/

/-- A byte blob. -/
structure Blob where
  bytes : List ℕ
deriving DecidableEq, Repr

/-- Blob size in bytes. -/
def Blob.size (b : Blob) : ℕ := b.bytes.length

/-- The editor state of src/components/RecordingLibrary.tsx (`EditorState`):
segments plus the non-destructive edit parameters.  These are exactly the
fields the source interface declares. -/
structure EditorState where
  segments : List Segment
  videoVolume : ℚ
  musicVolume : ℚ
  playbackSpeed : ℚ
  zoom : ℚ
  panX : ℚ
  panY : ℚ
  addedAudioBlob : Option Blob
  addedAudioName : Option String
  addedAudioUrl : Option String

/-- `handleExport` reads `currentState.bgImageBlob`, but `EditorState`
declares no such field, so the access evaluates to `undefined` at run time;
modelled as `none`. -/
def EditorState.bgImageBlob (_ : EditorState) : Option Blob := none

/-- `handleExport` reads `currentState.bgImageUrl`, but `EditorState`
declares no such field, so the access evaluates to `undefined`. -/
def EditorState.bgImageUrl (_ : EditorState) : Option String := none

/-- `handleExport` reads `currentState.bgColor`, but `EditorState` declares
no such field, so the access evaluates to `undefined` — in particular it is
never equal to the string checked by the fast path. -/
def EditorState.bgColor (_ : EditorState) : Option String := none

/-- Requested output format (`'webm' | 'mp4' | 'gif'`). -/
inductive ExportFormat
  | webm
  | mp4
  | gif
deriving DecidableEq, BEq, Repr

/-- Requested save location (`'local' | 'drive' | 'youtube'`); `local` is a
reserved word in Lean, hence `localDest`. -/
inductive SaveLocation
  | localDest
  | drive
  | youtube
deriving DecidableEq, BEq, Repr

/-- The options handed to `handleExport` by the export modal. -/
structure ExportOptions where
  format : ExportFormat
  location : SaveLocation
  filename : String

/-- The `isClean` test of `handleExport`
(src/components/RecordingLibrary.tsx lines 347-362), clause for clause:
format is WebM, a single segment starting at zero and ending within half a
second of the full duration, unity clip volume/speed/zoom, zero pan, no
background image or custom background color, and no added audio.  The
last three background clauses read fields absent from `EditorState`. -/
def isClean (currentState : EditorState) (duration : ℚ)
    (options : ExportOptions) : Bool :=
  options.format == ExportFormat.webm &&
  currentState.segments.length == 1 &&
  (match currentState.segments.head? with
   | some seg => decide (seg.start = 0) && decide (|seg.stop - duration| < 1/2)
   | none => false) &&
  decide (currentState.videoVolume = 1) &&
  decide (currentState.playbackSpeed = 1) &&
  decide (currentState.zoom = 1) &&
  decide (currentState.panX = 0) &&
  decide (currentState.panY = 0) &&
  !currentState.bgImageBlob.isSome &&
  !currentState.bgImageUrl.isSome &&
  currentState.bgColor == some "#000000" &&
  !currentState.addedAudioBlob.isSome &&
  !currentState.addedAudioUrl.isSome

/-- The guard under which `handleExport` downloads the original blob
instantly instead of rendering (lines 364-374). -/
def fastPathTaken (currentState : EditorState) (duration : ℚ)
    (options : ExportOptions) : Bool :=
  isClean currentState duration options &&
  options.location == SaveLocation.localDest

/-- C2: the fast path of `handleExport` is dead code.  `isClean` compares
the missing `bgColor` field (always `undefined`) against `'#000000'`, so it
is false for every editor state — including the strict identity edit — and
the original blob is never returned; the renderer always runs. -/
theorem handleExport_fastPath_never_taken (currentState : EditorState)
    (duration : ℚ) (options : ExportOptions) :
    isClean currentState duration options = false ∧
    fastPathTaken currentState duration options = false := by
  have h1 : isClean currentState duration options = false := by
    unfold isClean
    simp [EditorState.bgColor]
  exact ⟨h1, by unfold fastPathTaken; rw [h1]; rfl⟩

/-! ## Transcode engine: processVideo and its progress channel -/

/-- A sequence of values delivered to the `onProgress` callback, in order. -/
abbrev ProgressTrace := List ℚ

/-- `totalDuration` in `processVideo`: the summed length of all segments. -/
def totalEditDuration (segs : List Segment) : ℚ :=
  (segs.map (fun s => s.stop - s.start)).sum

/-- The sort by ascending `start` that `processVideo` performs
(`[...segments].sort((a, b) => a.start - b.start)`). -/
def sortByStart (l : List Segment) : List Segment :=
  List.insertionSort (fun a b => a.start ≤ b.start) l

/-- The total duration contributed by a list of segment/samples pairings. -/
def pendingDuration (zl : List (Segment × List ℚ)) : ℚ :=
  (zl.map (fun p => p.1.stop - p.1.start)).sum

@[simp] theorem pendingDuration_nil : pendingDuration [] = 0 := rfl

@[simp] theorem pendingDuration_cons (s : Segment) (ts : List ℚ)
    (rest : List (Segment × List ℚ)) :
    pendingDuration ((s, ts) :: rest) = (s.stop - s.start) + pendingDuration rest := by
  simp [pendingDuration]

@[simp] theorem totalEditDuration_nil : totalEditDuration [] = 0 := rfl

@[simp] theorem totalEditDuration_cons (s : Segment) (rest : List Segment) :
    totalEditDuration (s :: rest) = (s.stop - s.start) + totalEditDuration rest := by
  simp [totalEditDuration]

/-- Raw progress values reported while replaying segments in order.  For
each segment, every observed playback time `t` yields a report of
`(processedDuration + (t - segment.start)) / totalDuration`; after a segment
finishes, its full length is added to `processedDuration`
(`processedDuration += segment.end - segment.start`). -/
def rawEmissions (total : ℚ) : ℚ → List (Segment × List ℚ) → List ℚ
  | _, [] => []
  | processed, (s, ts) :: rest =>
    ts.map (fun t => (processed + (t - s.start)) / total) ++
      rawEmissions total (processed + (s.stop - s.start)) rest

/-- Playback-time samples are admissible for a segment list: per segment the
observed `timeupdate` times are non-decreasing (clock monotonicity during
playback) and lie in `[segment.start, segment.end)` — the progress branch of
`checkTime` runs only while `currentTime < segment.end`, after a seek to
`segment.start`. -/
def SamplesOk (segs : List Segment) (samples : List (List ℚ)) : Prop :=
  ∀ p ∈ segs.zip samples,
    List.Chain' (· ≤ ·) p.2 ∧ ∀ t ∈ p.2, p.1.start ≤ t ∧ t < p.1.stop

/-- Every raw emission is at least `processed / total` and strictly below
`(processed + pendingDuration) / total`. -/
theorem rawEmissions_bounds {total : ℚ} (htot : 0 < total)
    (zl : List (Segment × List ℚ)) (processed : ℚ)
    (hprop : ∀ p ∈ zl, p.1.start < p.1.stop)
    (hsam : ∀ p ∈ zl, List.Chain' (· ≤ ·) p.2 ∧ ∀ t ∈ p.2, p.1.start ≤ t ∧ t < p.1.stop) :
    ∀ x ∈ rawEmissions total processed zl,
      processed / total ≤ x ∧ x < (processed + pendingDuration zl) / total := by
  induction zl generalizing processed with
  | nil => simp [rawEmissions]
  | cons p rest ih =>
    obtain ⟨s, ts⟩ := p
    have hlen : 0 < s.stop - s.start :=
      sub_pos.mpr (hprop (s, ts) (List.mem_cons_self ..))
    have hpend : 0 ≤ pendingDuration rest :=
      List.sum_nonneg fun x hx => by
        obtain ⟨q, hq, rfl⟩ := List.mem_map.mp hx
        exact sub_nonneg.mpr (le_of_lt (hprop q (List.mem_cons_of_mem _ hq)))
    intro x hx
    rw [rawEmissions, List.mem_append] at hx
    rcases hx with hx | hx
    · obtain ⟨t, ht, rfl⟩ := List.mem_map.mp hx
      obtain ⟨ht1, ht2⟩ := (hsam (s, ts) (List.mem_cons_self ..)).2 t ht
      constructor
      · exact (div_le_div_iff_of_pos_right htot).mpr (by linarith)
      · rw [pendingDuration_cons]
        exact (div_lt_div_iff_of_pos_right htot).mpr (by linarith)
    · have hrest := ih (processed + (s.stop - s.start))
        (fun q hq => hprop q (List.mem_cons_of_mem _ hq))
        (fun q hq => hsam q (List.mem_cons_of_mem _ hq)) x hx
      constructor
      · exact le_trans ((div_le_div_iff_of_pos_right htot).mpr (by linarith)) hrest.1
      · rw [pendingDuration_cons]
        refine lt_of_lt_of_le hrest.2 ((div_le_div_iff_of_pos_right htot).mpr (by ring_nf; exact le_refl _))

/-- The raw emissions are monotonically non-decreasing. -/
theorem rawEmissions_chain {total : ℚ} (htot : 0 < total)
    (zl : List (Segment × List ℚ)) (processed : ℚ)
    (hprop : ∀ p ∈ zl, p.1.start < p.1.stop)
    (hsam : ∀ p ∈ zl, List.Chain' (· ≤ ·) p.2 ∧ ∀ t ∈ p.2, p.1.start ≤ t ∧ t < p.1.stop) :
    List.Chain' (· ≤ ·) (rawEmissions total processed zl) := by
  induction zl generalizing processed with
  | nil => simp [rawEmissions]
  | cons p rest ih =>
    obtain ⟨s, ts⟩ := p
    have hproptl : ∀ q ∈ rest, q.1.start < q.1.stop :=
      fun q hq => hprop q (List.mem_cons_of_mem _ hq)
    have hsamtl : ∀ q ∈ rest, List.Chain' (· ≤ ·) q.2 ∧ ∀ t ∈ q.2, q.1.start ≤ t ∧ t < q.1.stop :=
      fun q hq => hsam q (List.mem_cons_of_mem _ hq)
    rw [rawEmissions]
    refine List.Chain'.append ?_ (ih (processed + (s.stop - s.start)) hproptl hsamtl) ?_
    · refine (List.chain'_map _).mpr (((hsam (s, ts) (List.mem_cons_self ..)).1).imp ?_)
      intro a b hab
      exact (div_le_div_iff_of_pos_right htot).mpr (by linarith)
    · intro x hx y hy
      have hxmem : x ∈ ts.map (fun t => (processed + (t - s.start)) / total) :=
        List.mem_of_getLast?_eq_some (Option.mem_def.mp hx)
      have hymem : y ∈ rawEmissions total (processed + (s.stop - s.start)) rest :=
        List.mem_of_mem_head? hy
      obtain ⟨t, ht, rfl⟩ := List.mem_map.mp hxmem
      have ht2 := ((hsam (s, ts) (List.mem_cons_self ..)).2 t ht).2
      have hylow := (rawEmissions_bounds htot rest (processed + (s.stop - s.start))
        hproptl hsamtl y hymem).1
      refine le_trans (le_of_lt ?_) hylow
      exact (div_lt_div_iff_of_pos_right htot).mpr (by linarith)

/-- A proper nonempty segment list has positive total duration. -/
theorem totalEditDuration_pos {l : List Segment}
    (hp : properSegments l) (hne : l ≠ []) :
    0 < totalEditDuration l := by
  cases l with
  | nil => exact absurd rfl hne
  | cons s rest =>
    have h1 : 0 < s.stop - s.start := sub_pos.mpr (hp s (List.mem_cons_self ..))
    have h2 : 0 ≤ totalEditDuration rest :=
      List.sum_nonneg fun x hx => by
        obtain ⟨a, ha, rfl⟩ := List.mem_map.mp hx
        exact sub_nonneg.mpr (le_of_lt (hp a (List.mem_cons_of_mem _ ha)))
    rw [totalEditDuration_cons]
    linarith

/-- The duration covered by a zip with sample lists is at most the total. -/
theorem pendingDuration_zip_le (l : List Segment) (samples : List (List ℚ))
    (hp : ∀ s ∈ l, s.start ≤ s.stop) :
    pendingDuration (l.zip samples) ≤ totalEditDuration l := by
  induction l generalizing samples with
  | nil => simp
  | cons s rest ih =>
    have h0 : (0:ℚ) ≤ s.stop - s.start :=
      sub_nonneg.mpr (hp s (List.mem_cons_self ..))
    have hrest : ∀ a ∈ rest, a.start ≤ a.stop :=
      fun a ha => hp a (List.mem_cons_of_mem _ ha)
    have hrest0 : 0 ≤ totalEditDuration rest :=
      List.sum_nonneg fun x hx => by
        obtain ⟨a, ha, rfl⟩ := List.mem_map.mp hx
        exact sub_nonneg.mpr (hrest a ha)
    cases samples with
    | nil =>
      rw [List.zip_nil_right, pendingDuration_nil, totalEditDuration_cons]
      linarith
    | cons ts ss =>
      rw [List.zip_cons_cons, pendingDuration_cons, totalEditDuration_cons]
      have := ih ss hrest
      linarith

/-- `sortByStart` preserves properness (it permutes the list). -/
theorem properSegments_sortByStart {l : List Segment} (hp : properSegments l) :
    properSegments (sortByStart l) := fun s hs =>
  hp s ((List.perm_insertionSort _ l).mem_iff.mp hs)

/-- `sortByStart` of a nonempty list is nonempty. -/
theorem sortByStart_ne_nil {l : List Segment} (hne : l ≠ []) :
    sortByStart l ≠ [] := by
  intro h
  apply hne
  have hlen := (List.perm_insertionSort (fun a b : Segment => a.start ≤ b.start) l).length_eq
  rw [sortByStart] at h
  rw [h] at hlen
  exact List.length_eq_zero.mp hlen.symm

/-- Monotonicity and boundedness of the raw trace of a sorted replay run. -/
theorem rawTraceFacts (segments : List Segment) (samples : List (List ℚ))
    (hne : segments ≠ []) (hp : properSegments segments)
    (hsam : SamplesOk (sortByStart segments) samples) :
    List.Chain' (· ≤ ·)
      (rawEmissions (totalEditDuration (sortByStart segments)) 0
        ((sortByStart segments).zip samples)) ∧
    ∀ x ∈ rawEmissions (totalEditDuration (sortByStart segments)) 0
        ((sortByStart segments).zip samples), 0 ≤ x ∧ x < 1 := by
  have hps : properSegments (sortByStart segments) := properSegments_sortByStart hp
  have htot : 0 < totalEditDuration (sortByStart segments) :=
    totalEditDuration_pos hps (sortByStart_ne_nil hne)
  have hprop : ∀ p ∈ (sortByStart segments).zip samples, p.1.start < p.1.stop := by
    rintro ⟨a, b⟩ hab
    exact hps a (List.of_mem_zip hab).1
  refine ⟨rawEmissions_chain htot _ 0 hprop hsam, fun x hx => ?_⟩
  have hb := rawEmissions_bounds htot _ 0 hprop hsam x hx
  have hple : pendingDuration ((sortByStart segments).zip samples) ≤
      totalEditDuration (sortByStart segments) :=
    pendingDuration_zip_le _ _ (fun s hs => le_of_lt (hps s hs))
  constructor
  · simpa using hb.1
  · refine lt_of_lt_of_le hb.2 ?_
    rw [zero_add, div_le_one htot]
    exact hple

/-- src/utils/videoProcessor.ts video path (lines 292-328): per `timeupdate`
tick the report is capped at `0.99` (`Math.min(0.99, totalProgress)`), and
`onProgress(1)` fires after the last segment, just after `recorder.stop()`. -/
def videoPathProgressNative (segments : List Segment)
    (samples : List (List ℚ)) : ProgressTrace :=
  let sorted := sortByStart segments
  let total := totalEditDuration sorted
  (rawEmissions total 0 (sorted.zip samples)).map (fun p => min (99/100) p) ++ [1]

/-- GIF frame times of the native GIF path, relative to the segment start:
the closed form of `while (currentTime < segment.end) { ...;
currentTime += frameInterval * playbackSpeed }` starting at `segment.start`:
the loop body runs for every `k * step` below the segment length. -/
def gifFrameOffsets (len step : ℚ) : List ℚ :=
  (List.range ⌈len / step⌉.toNat).map (fun k : ℕ => (k : ℚ) * step)

/-- src/utils/videoProcessor.ts GIF path (lines 172-226): per captured frame
the report is `totalProgress * 0.8`, after the loop `onProgress(0.8)` fires,
and `gif.render()` starts encoding whose `finished` event resolves the
promise without any further progress report — the value 1 is never sent. -/
def gifPathProgressNative (segments : List Segment) (playbackSpeed : ℚ) : ProgressTrace :=
  let sorted := sortByStart segments
  let total := totalEditDuration sorted
  let step := 1/10 * playbackSpeed
  (rawEmissions total 0
      (sorted.zip (sorted.map fun s =>
        (gifFrameOffsets (s.stop - s.start) step).map (fun off => s.start + off)))).map
    (fun p => p * (4/5)) ++ [4/5]

/-- src/unnamed/part_005 video path (lines 148-227): per `timeupdate` tick
the raw progress is reported uncapped, and `onProgress(1)` fires once the
intermediate blob is returned. -/
def videoPathProgressFF (segments : List Segment)
    (samples : List (List ℚ)) : ProgressTrace :=
  let sorted := sortByStart segments
  let total := totalEditDuration sorted
  rawEmissions total 0 (sorted.zip samples) ++ [1]

/-- src/unnamed/part_005 GIF path: the intermediate render reports
`prog * 0.5`, then the FFmpeg stages report 0.6, 0.7, 0.8, 0.9 and finally 1. -/
def gifPathProgressFF (segments : List Segment)
    (samples : List (List ℚ)) : ProgressTrace :=
  let sorted := sortByStart segments
  let total := totalEditDuration sorted
  (rawEmissions total 0 (sorted.zip samples)).map (fun p => p * (1/2)) ++
    [3/5, 7/10, 4/5, 9/10, 1]

/-- The failure raised by both renderer variants on an empty segment list
(`"No video segments selected for export."`). -/
inductive ProcessError
  | noSegments
deriving DecidableEq, Repr

/-- The `ProcessOptions` record consumed by `processVideo`, restricted to
the fields the model tracks. -/
structure ProcessOptions where
  blob : Blob
  segments : List Segment
  videoVolume : ℚ
  musicVolume : ℚ
  playbackSpeed : ℚ
  format : ExportFormat

/-- src/utils/videoProcessor.ts `processVideo` (lines 60-77): the
empty-segment check is the first statement, before any canvas, video or
audio setup; on success the run delivers the progress trace of the selected
path. -/
def processVideoNative (options : ProcessOptions)
    (samples : List (List ℚ)) : Except ProcessError ProgressTrace :=
  if options.segments.length = 0 then .error .noSegments
  else .ok (match options.format with
    | .gif => gifPathProgressNative options.segments options.playbackSpeed
    | _ => videoPathProgressNative options.segments samples)

/-- src/unnamed/part_005 `processVideo` (lines 42-59): same guard, same
position, FFmpeg-based GIF stage. -/
def processVideoFF (options : ProcessOptions)
    (samples : List (List ℚ)) : Except ProcessError ProgressTrace :=
  if options.segments.length = 0 then .error .noSegments
  else .ok (match options.format with
    | .gif => gifPathProgressFF options.segments samples
    | _ => videoPathProgressFF options.segments samples)

/-- A progress trace is monotonically non-decreasing. -/
def monotoneTrace (tr : ProgressTrace) : Prop := List.Chain' (· ≤ ·) tr

/-- Every value of the trace lies in `[0, 1]`. -/
def boundedTrace (tr : ProgressTrace) : Prop := ∀ p ∈ tr, 0 ≤ p ∧ p ≤ 1

/-- The trace ends with the completion value 1. -/
def completesTrace (tr : ProgressTrace) : Prop := tr.getLast? = some 1

/-- Facts about a capped video trace `map (min 0.99) raw ++ [1]`. -/
theorem pathFacts_min (raw : List ℚ) (hc : List.Chain' (· ≤ ·) raw)
    (hb : ∀ x ∈ raw, 0 ≤ x ∧ x < 1) :
    monotoneTrace (raw.map (fun p => min (99/100) p) ++ [1]) ∧
    boundedTrace (raw.map (fun p => min (99/100) p) ++ [1]) ∧
    completesTrace (raw.map (fun p => min (99/100) p) ++ [1]) := by
  refine ⟨?_, ?_, List.getLast?_concat _⟩
  · refine List.Chain'.append ?_ (List.chain'_singleton _) ?_
    · exact (List.chain'_map _).mpr (hc.imp fun a b hab => min_le_min le_rfl hab)
    · intro x hx y hy
      have hxmem := List.mem_of_getLast?_eq_some (Option.mem_def.mp hx)
      obtain ⟨q, _, rfl⟩ := List.mem_map.mp hxmem
      have hy1 : (1:ℚ) = y := by simpa using hy
      subst hy1
      exact le_trans (min_le_left _ _) (by norm_num)
  · intro p hp
    rw [List.mem_append] at hp
    rcases hp with hp | hp
    · obtain ⟨q, hq, rfl⟩ := List.mem_map.mp hp
      exact ⟨le_min (by norm_num) (hb q hq).1,
        le_trans (min_le_left _ _) (by norm_num)⟩
    · have h1 : p = 1 := by simpa using hp
      subst h1
      norm_num

/-- Facts about an uncapped video trace `raw ++ [1]`. -/
theorem pathFacts_id (raw : List ℚ) (hc : List.Chain' (· ≤ ·) raw)
    (hb : ∀ x ∈ raw, 0 ≤ x ∧ x < 1) :
    monotoneTrace (raw ++ [1]) ∧ boundedTrace (raw ++ [1]) ∧
    completesTrace (raw ++ [1]) := by
  refine ⟨?_, ?_, List.getLast?_concat _⟩
  · refine List.Chain'.append hc (List.chain'_singleton _) ?_
    intro x hx y hy
    have hxmem := List.mem_of_getLast?_eq_some (Option.mem_def.mp hx)
    have hy1 : (1:ℚ) = y := by simpa using hy
    subst hy1
    exact le_of_lt (hb x hxmem).2
  · intro p hp
    rw [List.mem_append] at hp
    rcases hp with hp | hp
    · exact ⟨(hb p hp).1, le_of_lt (hb p hp).2⟩
    · have h1 : p = 1 := by simpa using hp
      subst h1
      norm_num

/-- Facts about the FFmpeg GIF trace `map (· * 0.5) raw ++ [0.6, …, 1]`. -/
theorem pathFacts_halfThenStages (raw : List ℚ) (hc : List.Chain' (· ≤ ·) raw)
    (hb : ∀ x ∈ raw, 0 ≤ x ∧ x < 1) :
    monotoneTrace (raw.map (fun p => p * (1/2)) ++ [3/5, 7/10, 4/5, 9/10, 1]) ∧
    boundedTrace (raw.map (fun p => p * (1/2)) ++ [3/5, 7/10, 4/5, 9/10, 1]) ∧
    completesTrace (raw.map (fun p => p * (1/2)) ++ [3/5, 7/10, 4/5, 9/10, 1]) := by
  refine ⟨?_, ?_, ?_⟩
  · refine List.Chain'.append ?_ ?_ ?_
    · refine (List.chain'_map _).mpr (hc.imp ?_)
      intro a b hab
      nlinarith
    · simp only [List.chain'_cons, List.chain'_singleton, and_true]
      norm_num
    · intro x hx y hy
      have hxmem := List.mem_of_getLast?_eq_some (Option.mem_def.mp hx)
      obtain ⟨q, hq, rfl⟩ := List.mem_map.mp hxmem
      have hy1 : (3/5 : ℚ) = y := by simpa using hy
      subst hy1
      have hq1 := (hb q hq).1
      have hq2 := (hb q hq).2
      nlinarith
  · intro p hp
    rw [List.mem_append] at hp
    rcases hp with hp | hp
    · obtain ⟨q, hq, rfl⟩ := List.mem_map.mp hp
      have h1 := (hb q hq).1
      have h2 := (hb q hq).2
      constructor <;> nlinarith
    · have h1 : p = 3/5 ∨ p = 7/10 ∨ p = 4/5 ∨ p = 9/10 ∨ p = 1 := by
        simpa using hp
      rcases h1 with rfl | rfl | rfl | rfl | rfl <;> norm_num
  · unfold completesTrace
    rw [List.getLast?_append]
    rfl

/-- Facts about the native GIF trace `map (· * 0.8) raw ++ [0.8]`: monotone
and bounded, but its final report is `0.8`, not 1. -/
theorem pathFacts_gifNative (raw : List ℚ) (hc : List.Chain' (· ≤ ·) raw)
    (hb : ∀ x ∈ raw, 0 ≤ x ∧ x < 1) :
    monotoneTrace (raw.map (fun p => p * (4/5)) ++ [4/5]) ∧
    boundedTrace (raw.map (fun p => p * (4/5)) ++ [4/5]) ∧
    (raw.map (fun p => p * (4/5)) ++ [4/5]).getLast? = some (4/5) := by
  refine ⟨?_, ?_, List.getLast?_concat _⟩
  · refine List.Chain'.append ?_ (List.chain'_singleton _) ?_
    · refine (List.chain'_map _).mpr (hc.imp ?_)
      intro a b hab
      nlinarith
    · intro x hx y hy
      have hxmem := List.mem_of_getLast?_eq_some (Option.mem_def.mp hx)
      obtain ⟨q, hq, rfl⟩ := List.mem_map.mp hxmem
      have hy1 : (4/5 : ℚ) = y := by simpa using hy
      subst hy1
      have hq2 := (hb q hq).2
      nlinarith
  · intro p hp
    rw [List.mem_append] at hp
    rcases hp with hp | hp
    · obtain ⟨q, hq, rfl⟩ := List.mem_map.mp hp
      have h1 := (hb q hq).1
      have h2 := (hb q hq).2
      constructor <;> nlinarith
    · have h1 : p = 4/5 := by simpa using hp
      subst h1
      norm_num

/-- The generated GIF frame times of one segment are admissible samples. -/
theorem gifFrames_ok (s : Segment) (step : ℚ) (hstep : 0 < step)
    (hs : s.start < s.stop) :
    List.Chain' (· ≤ ·)
      ((gifFrameOffsets (s.stop - s.start) step).map (fun off => s.start + off)) ∧
    ∀ t ∈ (gifFrameOffsets (s.stop - s.start) step).map (fun off => s.start + off),
      s.start ≤ t ∧ t < s.stop := by
  constructor
  · apply List.Pairwise.chain'
    rw [gifFrameOffsets, List.pairwise_map, List.pairwise_map]
    refine List.Pairwise.imp ?_ (List.pairwise_lt_range _)
    intro a b hab
    have hcast : (a : ℚ) ≤ (b : ℚ) := Nat.cast_le.mpr (le_of_lt hab)
    nlinarith
  · intro t ht
    rw [gifFrameOffsets] at ht
    obtain ⟨off, hoff, rfl⟩ := List.mem_map.mp ht
    obtain ⟨k, hk, rfl⟩ := List.mem_map.mp hoff
    rw [List.mem_range] at hk
    constructor
    · have h0 : (0:ℚ) ≤ (k : ℚ) * step :=
        mul_nonneg (Nat.cast_nonneg k) (le_of_lt hstep)
      linarith
    · have hkz : (k : ℤ) < ⌈(s.stop - s.start) / step⌉ := Int.lt_toNat.mp hk
      have hkq : (k : ℚ) < (s.stop - s.start) / step := by
        have hcast := Int.lt_ceil.mp hkz
        push_cast at hcast
        exact hcast
      have hlt : (k : ℚ) * step < s.stop - s.start := (lt_div_iff₀ hstep).mp hkq
      linarith

/-- The per-segment GIF frame lists form admissible samples for the list. -/
theorem samplesOk_gifSamples (l : List Segment) (step : ℚ) (hstep : 0 < step)
    (hp : properSegments l) :
    SamplesOk l (l.map fun s =>
      (gifFrameOffsets (s.stop - s.start) step).map (fun off => s.start + off)) := by
  induction l with
  | nil => intro p hpm; simp at hpm
  | cons s rest ih =>
    intro p hpm
    simp only [List.map_cons, List.zip_cons_cons, List.mem_cons] at hpm
    rcases hpm with rfl | hpm
    · exact gifFrames_ok s step hstep (hp s (List.mem_cons_self ..))
    · exact ih (fun a ha => hp a (List.mem_cons_of_mem _ ha)) p hpm

/-- C3: both renderer variants reject an empty segment list with the
no-segments error as their very first step, and no run (hence no output
bytes) is ever produced for it. -/
theorem processVideo_rejects_empty (options : ProcessOptions)
    (samples : List (List ℚ)) (h : options.segments = []) :
    processVideoNative options samples = .error .noSegments ∧
    processVideoFF options samples = .error .noSegments ∧
    (∀ tr, processVideoNative options samples ≠ .ok tr) ∧
    (∀ tr, processVideoFF options samples ≠ .ok tr) := by
  have h0 : options.segments.length = 0 := by rw [h]; rfl
  refine ⟨?_, ?_, ?_, ?_⟩
  · simp [processVideoNative, h0]
  · simp [processVideoFF, h0]
  · intro tr
    simp [processVideoNative, h0]
  · intro tr
    simp [processVideoFF, h0]

/-- Witness for `processVideo_rejects_empty` at a concrete empty edit. -/
theorem processVideo_rejects_empty_witness :
    (⟨⟨[]⟩, [], 1, 1, 1, ExportFormat.webm⟩ : ProcessOptions).segments = [] ∧
    processVideoNative ⟨⟨[]⟩, [], 1, 1, 1, ExportFormat.webm⟩ [] =
      .error .noSegments :=
  ⟨rfl, (processVideo_rejects_empty ⟨⟨[]⟩, [], 1, 1, 1, ExportFormat.webm⟩ [] rfl).1⟩

/-- C5 (amended): for every admissible render run, the progress values of
both renderers' video paths and of the FFmpeg renderer's GIF path are
monotonically non-decreasing, lie in `[0, 1]` and end with the value 1; the
gif.js GIF path of src/utils/videoProcessor.ts is monotone and bounded as
well, but its final report is `0.8` — it never delivers the value 1. -/
theorem processVideo_progress_amended (segments : List Segment)
    (samples : List (List ℚ)) (playbackSpeed : ℚ)
    (hne : segments ≠ []) (hp : properSegments segments)
    (hsam : SamplesOk (sortByStart segments) samples)
    (hspeed : 0 < playbackSpeed) :
    (monotoneTrace (videoPathProgressNative segments samples) ∧
      boundedTrace (videoPathProgressNative segments samples) ∧
      completesTrace (videoPathProgressNative segments samples)) ∧
    (monotoneTrace (videoPathProgressFF segments samples) ∧
      boundedTrace (videoPathProgressFF segments samples) ∧
      completesTrace (videoPathProgressFF segments samples)) ∧
    (monotoneTrace (gifPathProgressFF segments samples) ∧
      boundedTrace (gifPathProgressFF segments samples) ∧
      completesTrace (gifPathProgressFF segments samples)) ∧
    (monotoneTrace (gifPathProgressNative segments playbackSpeed) ∧
      boundedTrace (gifPathProgressNative segments playbackSpeed) ∧
      (gifPathProgressNative segments playbackSpeed).getLast? = some (4/5)) := by
  obtain ⟨hc, hb⟩ := rawTraceFacts segments samples hne hp hsam
  have hstep : (0:ℚ) < 1/10 * playbackSpeed := by
    have : (0:ℚ) < 1/10 := by norm_num
    exact mul_pos this hspeed
  have hsamg : SamplesOk (sortByStart segments)
      ((sortByStart segments).map fun s =>
        (gifFrameOffsets (s.stop - s.start) (1/10 * playbackSpeed)).map
          (fun off => s.start + off)) :=
    samplesOk_gifSamples _ _ hstep (properSegments_sortByStart hp)
  obtain ⟨hcg, hbg⟩ := rawTraceFacts segments _ hne hp hsamg
  exact ⟨pathFacts_min _ hc hb, pathFacts_id _ hc hb,
    pathFacts_halfThenStages _ hc hb, pathFacts_gifNative _ hcg hbg⟩

/-- Witness for `processVideo_progress_amended` at a concrete run. -/
theorem processVideo_progress_amended_witness :
    (([⟨"seg-1", 0, 1⟩] : List Segment) ≠ [] ∧
      properSegments [⟨"seg-1", 0, 1⟩] ∧
      SamplesOk (sortByStart [⟨"seg-1", 0, 1⟩]) [[0]] ∧ (0:ℚ) < 1) ∧
    completesTrace (videoPathProgressNative [⟨"seg-1", 0, 1⟩] [[0]]) := by
  have hne : ([⟨"seg-1", 0, 1⟩] : List Segment) ≠ [] := by simp
  have hp : properSegments [(⟨"seg-1", 0, 1⟩ : Segment)] := by
    intro s hs
    have h1 : s = ⟨"seg-1", 0, 1⟩ := by simpa using hs
    subst h1
    norm_num
  have hsam : SamplesOk (sortByStart [⟨"seg-1", 0, 1⟩]) [[0]] := by
    intro p hpm
    have h1 : p = (⟨"seg-1", 0, 1⟩, ([0] : List ℚ)) := by
      simpa [sortByStart, List.insertionSort, List.orderedInsert] using hpm
    subst h1
    refine ⟨List.chain'_singleton _, ?_⟩
    intro t ht
    have h2 : t = 0 := by simpa using ht
    subst h2
    norm_num
  have hs1 : (0:ℚ) < 1 := by norm_num
  exact ⟨⟨hne, hp, hsam, hs1⟩,
    (processVideo_progress_amended [⟨"seg-1", 0, 1⟩] [[0]] 1 hne hp hsam hs1).1.2.2⟩

/-- C5 counterexample: for the GIF path of src/utils/videoProcessor.ts on a
one-second single-segment edit at speed 1, the final progress report is
`0.8` and the value 1 is never delivered. -/
theorem gifPathNative_never_completes :
    (gifPathProgressNative [⟨"seg-1", 0, 1⟩] 1).getLast? = some (4/5) ∧
    (1:ℚ) ∉ gifPathProgressNative [⟨"seg-1", 0, 1⟩] 1 := by
  have hne : ([⟨"seg-1", 0, 1⟩] : List Segment) ≠ [] := by simp
  have hp : properSegments [(⟨"seg-1", 0, 1⟩ : Segment)] := by
    intro s hs
    have h1 : s = ⟨"seg-1", 0, 1⟩ := by simpa using hs
    subst h1
    norm_num
  have hstep : (0:ℚ) < 1/10 * 1 := by norm_num
  have hsamg : SamplesOk (sortByStart [⟨"seg-1", 0, 1⟩])
      ((sortByStart [⟨"seg-1", 0, 1⟩]).map fun s =>
        (gifFrameOffsets (s.stop - s.start) (1/10 * 1)).map
          (fun off => s.start + off)) :=
    samplesOk_gifSamples _ _ hstep (properSegments_sortByStart hp)
  obtain ⟨hcg, hbg⟩ := rawTraceFacts [⟨"seg-1", 0, 1⟩] _ hne hp hsamg
  constructor
  · exact (pathFacts_gifNative _ hcg hbg).2.2
  · intro hmem
    simp only [gifPathProgressNative, List.mem_append] at hmem
    rcases hmem with hmem | hmem
    · obtain ⟨q, hq, hq1⟩ := List.mem_map.mp hmem
      have h1 := (hbg q hq).1
      have h2 := (hbg q hq).2
      nlinarith
    · have h1 : (1:ℚ) = 4/5 := by simpa using hmem
      norm_num at h1

/-! ## Capture session controller: useScreenRecorder
(src/hooks/useScreenRecorder.ts, the variant with the re-entry guard and
background compositing). -/

/-- `RecorderStatus` of the hook. -/
inductive RecorderStatus
  | idle
  | recording
  | recorded
deriving DecidableEq, Repr

/-- The observable hook state: status, surfaced error message, the re-entry
guard `isRecordingInProgressRef`, the ordered data chunks `chunksRef`, the
assembled result `currentBlob`, and whether session resources (stream
tracks, audio graph, draw loop) are live. -/
structure RecorderState where
  status : RecorderStatus
  error : Option String
  isRecordingInProgress : Bool
  chunks : List Blob
  currentBlob : Option Blob
  resourcesLive : Bool
deriving DecidableEq, Repr

/-- `RecorderOptions` of the hook. -/
structure RecorderOptions where
  audio : Bool
  camera : Bool
  pip : Bool
  audioMixing : Bool
  backgroundColor : Option String
  backgroundImageUrl : Option String
deriving DecidableEq, Repr

/-- Error message of the `NotAllowedError` branch of the catch handler. -/
def permissionDeniedMsg : String :=
  "Permission denied. Please allow access to record."

/-- Error message of the `NotFoundError` branch of the catch handler. -/
def deviceNotFoundMsg : String :=
  "Requested device not found. Ensure your browser supports screen sharing."

/-- Error message raised when the background image fails to load
(`bgImage.onerror`, line 479-484). -/
def bgLoadFailedMsg : String :=
  "Failed to load background image. Please check the URL or try a different image."

/-- Error message raised when the background image fails the decode or
canvas-taint (CORS) check (lines 453-477). -/
def bgCorsFailedMsg : String :=
  "Background image does not support CORS and will corrupt the recording. Please use a local image or ensure the image server has CORS headers."

/-- Error message raised when the compositing canvas track never goes live
(lines 560-565). -/
def canvasInitFailedMsg : String :=
  "Canvas stream failed to initialize properly"

/-- Error surfaced by `onstop` with zero chunks (line 644). -/
def noDataCapturedMsg : String := "Recording failed: No data captured"

/-- Error surfaced by `onstop` with an empty assembled blob (line 662). -/
def emptyResultMsg : String := "Recording failed: Empty video data"

/-- Error surfaced by `mediaRecorder.onerror` (line 632). -/
def encodingErrorMsg : String := "Recording failed: Encoding error occurred"

/-- Outcome of acquiring the capture stream (getDisplayMedia/getUserMedia,
after the audio-fallback logic of lines 347-399). -/
inductive CaptureOutcome
  | ok
  | notAllowedError
  | notFoundError
  | otherError (msg : String)
deriving DecidableEq, Repr

/-- Outcome of loading and checking the background image: `onerror` fires
(fetch failure), the decode/canvas-taint test throws in the `onload`
handler, or the image is usable. -/
inductive BgImageOutcome
  | ok
  | loadError
  | corsOrDecodeError
deriving DecidableEq, Repr

/-- The environment one `startRecording` call runs against. -/
structure StartEnv where
  capture : CaptureOutcome
  bgImage : BgImageOutcome
  canvasTrackLive : Bool
deriving DecidableEq, Repr

/-- The `catch` handler of `startRecording` (lines 714-726): surface the
message, return the status to idle and release the re-entry guard. -/
def catchHandler (msg : String) (s : RecorderState) : RecorderState :=
  { s with error := some msg, status := .idle, isRecordingInProgress := false }

/-- `startRecording` (lines 327-727) as a state transition: the re-entry
guard returns early while a start is in flight (lines 329-334); otherwise
the guard is set, the previous session is cleaned up, the capture stream is
acquired, the background image — when requested — is loaded and
CORS-checked before compositing, the canvas track is verified live, and the
recorder starts; every failure funnels through the catch handler. -/
def startRecording (options : RecorderOptions) (env : StartEnv)
    (s : RecorderState) : RecorderState :=
  if s.isRecordingInProgress then s
  else
    let s1 : RecorderState :=
      { s with isRecordingInProgress := true, error := none, resourcesLive := false }
    match env.capture with
    | .notAllowedError => catchHandler permissionDeniedMsg s1
    | .notFoundError => catchHandler deviceNotFoundMsg s1
    | .otherError msg => catchHandler msg s1
    | .ok =>
      if options.backgroundImageUrl.isSome then
        match env.bgImage with
        | .loadError => catchHandler bgLoadFailedMsg s1
        | .corsOrDecodeError => catchHandler bgCorsFailedMsg s1
        | .ok =>
          if env.canvasTrackLive then
            { s1 with status := .recording, chunks := [], resourcesLive := true }
          else
            catchHandler canvasInitFailedMsg s1
      else if options.backgroundColor.isSome then
        if env.canvasTrackLive then
          { s1 with status := .recording, chunks := [], resourcesLive := true }
        else
          catchHandler canvasInitFailedMsg s1
      else
        { s1 with status := .recording, chunks := [], resourcesLive := true }

/-- `ondataavailable` (lines 622-627): chunks of nonzero size are appended
in delivery order. -/
def onDataAvailable (data : Blob) (s : RecorderState) : RecorderState :=
  if 0 < data.size then { s with chunks := s.chunks ++ [data] } else s

/-- `new Blob(validChunks, …)`: concatenation of all chunk bytes. -/
def assembleChunks (chunks : List Blob) : Blob := ⟨(chunks.map Blob.bytes).flatten⟩

/-- `mediaRecorder.onstop` (lines 638-701): fail with the no-data error when
zero chunks were collected; fail with the empty-result error when the
assembled blob has zero size; otherwise publish the blob and transition to
`recorded`.  Both failure branches tear resources down and release the
guard. -/
def onSessionFinish (s : RecorderState) : RecorderState :=
  if s.chunks.length = 0 then
    { s with
      error := some noDataCapturedMsg
      status := .idle
      isRecordingInProgress := false
      resourcesLive := false }
  else
    let blob := assembleChunks s.chunks
    if blob.size = 0 then
      { s with
        error := some emptyResultMsg
        status := .idle
        isRecordingInProgress := false
        resourcesLive := false }
    else
      { s with
        status := .recorded
        currentBlob := some blob
        isRecordingInProgress := false
        resourcesLive := false }

/-- `mediaRecorder.onerror` (lines 630-636). -/
def onRecorderError (s : RecorderState) : RecorderState :=
  { s with
    error := some encodingErrorMsg
    status := .idle
    isRecordingInProgress := false
    resourcesLive := false }

/-- `resetRecording` (lines 735-746): release resources, clear the result
and error, return to idle and release the guard. -/
def resetRecording (s : RecorderState) : RecorderState :=
  { s with
    resourcesLive := false
    currentBlob := none
    error := none
    status := .idle
    isRecordingInProgress := false }

/-- C6: a second `startRecording` while one is in flight is a no-op (state
unchanged, nothing surfaced as an error); a completed call either is
recording or has returned to idle with the guard released; and the guard is
released on session finish, on encoder error, and on reset. -/
theorem startRecording_reentry_guard :
    (∀ (options : RecorderOptions) (env : StartEnv) (s : RecorderState),
      s.isRecordingInProgress = true → startRecording options env s = s) ∧
    (∀ (options : RecorderOptions) (env : StartEnv) (s : RecorderState),
      s.isRecordingInProgress = false →
      (startRecording options env s).status = .recording ∨
      ((startRecording options env s).status = .idle ∧
        (startRecording options env s).isRecordingInProgress = false)) ∧
    (∀ s, (onSessionFinish s).isRecordingInProgress = false) ∧
    (∀ s, (onRecorderError s).isRecordingInProgress = false) ∧
    (∀ s, (resetRecording s).isRecordingInProgress = false) := by
  refine ⟨?_, ?_, ?_, ?_, ?_⟩
  · intro options env s h
    simp [startRecording, h]
  · intro options env s h
    obtain ⟨cap, bg, live⟩ := env
    cases cap <;> cases bg <;> cases live <;>
      by_cases h1 : options.backgroundImageUrl.isSome <;>
      by_cases h2 : options.backgroundColor.isSome <;>
      simp [startRecording, h, h1, h2, catchHandler]
  · intro s
    unfold onSessionFinish
    split
    · rfl
    · dsimp only
      split <;> rfl
  · intro s
    rfl
  · intro s
    rfl

/-- Witness for `startRecording_reentry_guard`: a call arriving while the
guard is held changes nothing. -/
theorem startRecording_reentry_guard_witness :
    ((⟨.recording, none, true, [], none, true⟩ : RecorderState).isRecordingInProgress
      = true) ∧
    startRecording ⟨true, false, false, false, none, none⟩ ⟨.ok, .ok, true⟩
        ⟨.recording, none, true, [], none, true⟩ =
      ⟨.recording, none, true, [], none, true⟩ :=
  ⟨rfl, startRecording_reentry_guard.1 _ _ _ rfl⟩

/-- C7: `onstop` with zero chunks surfaces the no-data error; with a
zero-size assembled blob it surfaces the empty-result error; in both cases
resources are torn down, the state returns to idle, and the session never
reaches `recorded`. -/
theorem onSessionFinish_spec (s : RecorderState) :
    (s.chunks = [] →
      onSessionFinish s =
        { s with
          error := some noDataCapturedMsg
          status := .idle
          isRecordingInProgress := false
          resourcesLive := false }) ∧
    (s.chunks ≠ [] → (assembleChunks s.chunks).size = 0 →
      onSessionFinish s =
        { s with
          error := some emptyResultMsg
          status := .idle
          isRecordingInProgress := false
          resourcesLive := false }) ∧
    ((s.chunks = [] ∨ (assembleChunks s.chunks).size = 0) →
      (onSessionFinish s).status = .idle ∧
      (onSessionFinish s).status ≠ .recorded ∧
      (onSessionFinish s).resourcesLive = false) := by
  refine ⟨?_, ?_, ?_⟩
  · intro h
    simp [onSessionFinish, h]
  · intro h1 h2
    have hlen : ¬ s.chunks.length = 0 := by
      simpa [List.length_eq_zero] using h1
    simp [onSessionFinish, hlen, h2]
  · rintro (h | h)
    · simp [onSessionFinish, h]
    · by_cases hnil : s.chunks = []
      · simp [onSessionFinish, hnil]
      · have hlen : ¬ s.chunks.length = 0 := by
          simpa [List.length_eq_zero] using hnil
        simp [onSessionFinish, hlen, h]

/-- Witness for `onSessionFinish_spec`: a session that collected no chunks
fails with the no-data error and returns to idle. -/
theorem onSessionFinish_spec_witness :
    ((⟨.recording, none, true, [], none, true⟩ : RecorderState).chunks = []) ∧
    onSessionFinish ⟨.recording, none, true, [], none, true⟩ =
      ⟨.idle, some noDataCapturedMsg, false, [], none, false⟩ := by
  refine ⟨rfl, ?_⟩
  simpa using (onSessionFinish_spec ⟨.recording, none, true, [], none, true⟩).1 rfl

/-- C8: with a background image URL requested, any fetch, decode or
cross-origin-taint failure of the image aborts session start with one of the
two descriptive background errors and the state is idle — the session never
proceeds to record without the requested background. -/
theorem bgImage_failure_aborts (options : RecorderOptions) (env : StartEnv)
    (s : RecorderState)
    (hguard : s.isRecordingInProgress = false)
    (hbg : options.backgroundImageUrl.isSome = true)
    (hcap : env.capture = .ok)
    (hfail : env.bgImage = .loadError ∨ env.bgImage = .corsOrDecodeError) :
    (startRecording options env s).status = .idle ∧
    ((startRecording options env s).error = some bgLoadFailedMsg ∨
      (startRecording options env s).error = some bgCorsFailedMsg) ∧
    (startRecording options env s).status ≠ .recording := by
  obtain ⟨cap, bg, live⟩ := env
  simp only at hcap hfail
  subst hcap
  rcases hfail with h | h <;> subst h <;>
    simp [startRecording, hguard, hbg, catchHandler]

/-- Witness for `bgImage_failure_aborts`: a failing background image fetch
aborts a start from idle. -/
theorem bgImage_failure_aborts_witness :
    ((⟨.idle, none, false, [], none, false⟩ : RecorderState).isRecordingInProgress
      = false) ∧
    ((⟨true, false, false, false, none, some "https://example.com/bg.png"⟩ :
      RecorderOptions).backgroundImageUrl.isSome = true) ∧
    (startRecording ⟨true, false, false, false, none, some "https://example.com/bg.png"⟩
        ⟨.ok, .loadError, true⟩ ⟨.idle, none, false, [], none, false⟩).status = .idle :=
  ⟨rfl, rfl,
    (bgImage_failure_aborts
      ⟨true, false, false, false, none, some "https://example.com/bg.png"⟩
      ⟨.ok, .loadError, true⟩ ⟨.idle, none, false, [], none, false⟩
      rfl rfl rfl (Or.inl rfl)).1⟩

end ScreenCap
